import Mathlib

/-!
Verification development for a tape-language execution engine
(parser/optimizer plus a tiered JIT with a deferred-compilation promise
table).  The definitions below shallowly embed the program's source:

* `src/parser/ast.rs` — `ASTNode`, `AST::parse`,
  `AST::shallow_run_length_optimize`
* `src/runnable/jit_target.rs` — `int_ceil`, `make_executable`,
  `JITTarget::{new, new_fragment, shallow_compile, compile_loop,
  defer_loop, jit_callback}`, `jit_functions::read`
* `src/main.rs` — the driver's runner selection.

Machine integers are embedded as `Nat` with explicit reduction modulo
`2 ^ w` where the source uses wrapping arithmetic (`u8` counts wrap
modulo 256, `usize` counts modulo `2 ^ 64`).
-/

namespace Fucker

/-- `u8::wrapping_add`: addition modulo 256. -/
def u8_wrapping_add (a b : Nat) : Nat := (a + b) % 256

/-- `usize::wrapping_add`: addition modulo the 64-bit machine word. -/
def usize_wrapping_add (a b : Nat) : Nat := (a + b) % (2 ^ 64)

/-- BrainFuck AST node (`src/parser/ast.rs`, `enum ASTNode`).  Counts are
`u8` (for `Incr`/`Decr`) and `usize` (for `Next`/`Prev`) in the source;
both are embedded as `Nat`.  A `VecDeque<ASTNode>` body is embedded as a
`List ASTNode` (front of the deque = head of the list). -/
inductive ASTNode where
  /-- Add to the current memory cell. -/
  | Incr (n : Nat)
  /-- Remove from the current memory cell. -/
  | Decr (n : Nat)
  /-- Shift the data pointer to the right. -/
  | Next (n : Nat)
  /-- Shift the data pointer to the left. -/
  | Prev (n : Nat)
  /-- Display the current memory cell. -/
  | Print
  /-- Read one character from stdin. -/
  | Read
  /-- Loop over the contained instructions while the cell is non-zero. -/
  | Loop (body : List ASTNode)

mutual

/-- Decidable equality on `ASTNode` (the nested `Loop` body defeats the
automatic derivation, so it is spelled out). -/
def ASTNode.decEq : (a b : ASTNode) → Decidable (a = b)
  | .Incr a, .Incr b =>
    match Nat.decEq a b with
    | isTrue h => isTrue (by rw [h])
    | isFalse h => isFalse (by intro hc; injection hc; contradiction)
  | .Decr a, .Decr b =>
    match Nat.decEq a b with
    | isTrue h => isTrue (by rw [h])
    | isFalse h => isFalse (by intro hc; injection hc; contradiction)
  | .Next a, .Next b =>
    match Nat.decEq a b with
    | isTrue h => isTrue (by rw [h])
    | isFalse h => isFalse (by intro hc; injection hc; contradiction)
  | .Prev a, .Prev b =>
    match Nat.decEq a b with
    | isTrue h => isTrue (by rw [h])
    | isFalse h => isFalse (by intro hc; injection hc; contradiction)
  | .Print, .Print => isTrue rfl
  | .Read, .Read => isTrue rfl
  | .Loop a, .Loop b =>
    match ASTNode.decEqList a b with
    | isTrue h => isTrue (by rw [h])
    | isFalse h => isFalse (by intro hc; injection hc; contradiction)
  | .Incr _, .Decr _ => isFalse (fun h => ASTNode.noConfusion h)
  | .Incr _, .Next _ => isFalse (fun h => ASTNode.noConfusion h)
  | .Incr _, .Prev _ => isFalse (fun h => ASTNode.noConfusion h)
  | .Incr _, .Print => isFalse (fun h => ASTNode.noConfusion h)
  | .Incr _, .Read => isFalse (fun h => ASTNode.noConfusion h)
  | .Incr _, .Loop _ => isFalse (fun h => ASTNode.noConfusion h)
  | .Decr _, .Incr _ => isFalse (fun h => ASTNode.noConfusion h)
  | .Decr _, .Next _ => isFalse (fun h => ASTNode.noConfusion h)
  | .Decr _, .Prev _ => isFalse (fun h => ASTNode.noConfusion h)
  | .Decr _, .Print => isFalse (fun h => ASTNode.noConfusion h)
  | .Decr _, .Read => isFalse (fun h => ASTNode.noConfusion h)
  | .Decr _, .Loop _ => isFalse (fun h => ASTNode.noConfusion h)
  | .Next _, .Incr _ => isFalse (fun h => ASTNode.noConfusion h)
  | .Next _, .Decr _ => isFalse (fun h => ASTNode.noConfusion h)
  | .Next _, .Prev _ => isFalse (fun h => ASTNode.noConfusion h)
  | .Next _, .Print => isFalse (fun h => ASTNode.noConfusion h)
  | .Next _, .Read => isFalse (fun h => ASTNode.noConfusion h)
  | .Next _, .Loop _ => isFalse (fun h => ASTNode.noConfusion h)
  | .Prev _, .Incr _ => isFalse (fun h => ASTNode.noConfusion h)
  | .Prev _, .Decr _ => isFalse (fun h => ASTNode.noConfusion h)
  | .Prev _, .Next _ => isFalse (fun h => ASTNode.noConfusion h)
  | .Prev _, .Print => isFalse (fun h => ASTNode.noConfusion h)
  | .Prev _, .Read => isFalse (fun h => ASTNode.noConfusion h)
  | .Prev _, .Loop _ => isFalse (fun h => ASTNode.noConfusion h)
  | .Print, .Incr _ => isFalse (fun h => ASTNode.noConfusion h)
  | .Print, .Decr _ => isFalse (fun h => ASTNode.noConfusion h)
  | .Print, .Next _ => isFalse (fun h => ASTNode.noConfusion h)
  | .Print, .Prev _ => isFalse (fun h => ASTNode.noConfusion h)
  | .Print, .Read => isFalse (fun h => ASTNode.noConfusion h)
  | .Print, .Loop _ => isFalse (fun h => ASTNode.noConfusion h)
  | .Read, .Incr _ => isFalse (fun h => ASTNode.noConfusion h)
  | .Read, .Decr _ => isFalse (fun h => ASTNode.noConfusion h)
  | .Read, .Next _ => isFalse (fun h => ASTNode.noConfusion h)
  | .Read, .Prev _ => isFalse (fun h => ASTNode.noConfusion h)
  | .Read, .Print => isFalse (fun h => ASTNode.noConfusion h)
  | .Read, .Loop _ => isFalse (fun h => ASTNode.noConfusion h)
  | .Loop _, .Incr _ => isFalse (fun h => ASTNode.noConfusion h)
  | .Loop _, .Decr _ => isFalse (fun h => ASTNode.noConfusion h)
  | .Loop _, .Next _ => isFalse (fun h => ASTNode.noConfusion h)
  | .Loop _, .Prev _ => isFalse (fun h => ASTNode.noConfusion h)
  | .Loop _, .Print => isFalse (fun h => ASTNode.noConfusion h)
  | .Loop _, .Read => isFalse (fun h => ASTNode.noConfusion h)

/-- Decidable equality on lists of `ASTNode`, mutually with
`ASTNode.decEq`. -/
def ASTNode.decEqList : (as bs : List ASTNode) → Decidable (as = bs)
  | [], [] => isTrue rfl
  | _ :: _, [] => isFalse (fun h => List.noConfusion h)
  | [], _ :: _ => isFalse (fun h => List.noConfusion h)
  | a :: as, b :: bs =>
    match ASTNode.decEq a b with
    | isFalse h1 => isFalse (by intro hc; injection hc; contradiction)
    | isTrue h1 =>
      match ASTNode.decEqList as bs with
      | isTrue h2 => isTrue (by rw [h1, h2])
      | isFalse h2 => isFalse (by intro hc; injection hc; contradiction)

end

instance : DecidableEq ASTNode := ASTNode.decEq

instance : DecidableEq (List ASTNode) := ASTNode.decEqList

/-- The run-length merge step of `shallow_run_length_optimize`
(`src/parser/ast.rs` lines 96-106): when the previously appended node and
the next node are the same fusible variant, the merged node adds the two
counts with wrapping arithmetic; otherwise no merge happens (`none`). -/
def combine : ASTNode → ASTNode → Option ASTNode
  | .Incr b, .Incr a => some (.Incr (u8_wrapping_add a b))
  | .Decr b, .Decr a => some (.Decr (u8_wrapping_add a b))
  | .Next b, .Next a => some (.Next (usize_wrapping_add a b))
  | .Prev b, .Prev a => some (.Prev (usize_wrapping_add a b))
  | _, _ => none

/-- One iteration of the `while let Some(next_node) = input.pop_front()`
loop of `shallow_run_length_optimize`: inspect the back of the output
(`output.back()`); on a merge, `pop_back` then `push_back` the combined
node; otherwise `push_back` the next node unchanged. -/
def srlo_step (output : List ASTNode) (next_node : ASTNode) : List ASTNode :=
  match output.getLast? with
  | some prev_node =>
    match combine prev_node next_node with
    | some combined => output.dropLast ++ [combined]
    | none => output ++ [next_node]
  | none => output ++ [next_node]

/-- `AST::shallow_run_length_optimize` (`src/parser/ast.rs` lines 87-114):
drain the input front-to-back, merging runs of `+`, `-`, `<`, `>` into
bulk operations. -/
def shallow_run_length_optimize (input : List ASTNode) : List ASTNode :=
  input.foldl srlo_step []

instance {ε α : Type} [DecidableEq ε] [DecidableEq α] :
    DecidableEq (Except ε α) := fun a b =>
  match a, b with
  | .ok a, .ok b =>
    if h : a = b then isTrue (by rw [h])
    else isFalse (by intro hc; injection hc; contradiction)
  | .error a, .error b =>
    if h : a = b then isTrue (by rw [h])
    else isFalse (by intro hc; injection hc; contradiction)
  | .ok _, .error _ => isFalse (fun h => Except.noConfusion h)
  | .error _, .ok _ => isFalse (fun h => Except.noConfusion h)

/-- Container for a vector of ASTNodes (`struct AST`). -/
structure AST where
  data : List ASTNode
deriving DecidableEq

/-- The parser's in-flight state inside `AST::parse`: the top-level
`output` deque and the `loops` stack of open loop bodies.  The stack's
`push_back`/`pop_back`/`back_mut` discipline is embedded with the
innermost open loop at the HEAD of the `loops` list. -/
structure ParseState where
  output : List ASTNode
  loops : List (List ASTNode)
deriving DecidableEq

/-- `loops.back_mut().unwrap_or(&mut output).push_back(next_node)`
(`src/parser/ast.rs` line 71): append to the innermost open loop body if
one exists, else to the top-level output. -/
def pushNode (st : ParseState) (n : ASTNode) : ParseState :=
  match st.loops with
  | [] => { st with output := st.output ++ [n] }
  | l :: rest => { st with loops := (l ++ [n]) :: rest }

/-- One character of `AST::parse`'s `for character in input.chars()` loop
(`src/parser/ast.rs` lines 35-72).  On `]` the innermost open body is
popped; if the TOP-LEVEL output is empty the popped body is discarded
(`if output.is_empty() { continue; }`), otherwise it is optimized,
wrapped in `Loop` and appended to the enclosing body. -/
def parseStep (st : ParseState) (c : Char) : Except String ParseState :=
  if c = '+' then .ok (pushNode st (.Incr 1))
  else if c = '-' then .ok (pushNode st (.Decr 1))
  else if c = '>' then .ok (pushNode st (.Next 1))
  else if c = '<' then .ok (pushNode st (.Prev 1))
  else if c = '.' then .ok (pushNode st (.Print))
  else if c = ',' then .ok (pushNode st (.Read))
  else if c = '[' then .ok { st with loops := [] :: st.loops }
  else if c = ']' then
    match st.loops with
    | [] => .error "More ] than ["
    | current_loop :: rest =>
      if st.output.isEmpty then .ok { output := st.output, loops := rest }
      else .ok (pushNode { output := st.output, loops := rest }
        (.Loop (shallow_run_length_optimize current_loop)))
  else .ok st

/-- `AST::parse` (`src/parser/ast.rs` lines 31-84): fold the character
steps from the empty state; reject leftover open loops at end of input;
run-length optimize the top-level output. -/
def parse (input : String) : Except String AST := do
  let st ← input.data.foldlM parseStep ⟨[], []⟩
  if st.loops.isEmpty then
    .ok ⟨shallow_run_length_optimize st.output⟩
  else
    .error "More [ than ]"

/-- Modelled from the spec: the `code_gen` emitters live in
`src/code_gen.rs`, which is not among the sources; only their call sites
are.  Each emitter appends opcode bytes for one IR node into a byte
buffer; here one abstract `CodeItem` stands for the byte template an
emitter appends (`aot_loop` and `wrapper` wrap already-emitted body
bytes, `jit_loop` embeds a promise id, `ret` is the single-byte return
opcode used as page filler). -/
inductive CodeItem where
  | incr (n : Nat)
  | decr (n : Nat)
  | next (n : Nat)
  | prev (n : Nat)
  | print
  | read
  | aotLoop (body : List CodeItem)
  | jitLoop (promise_id : Nat)
  | wrapped (body : List CodeItem)
  | ret

/-- Modelled from the spec: `code_gen::aot_loop` emits a while-nonzero
wrapper around already-emitted body bytes. -/
def aot_loop (body : List CodeItem) : List CodeItem := [.aotLoop body]

/-- Modelled from the spec: `code_gen::jit_loop` emits a callback
trampoline referencing a promise id. -/
def jit_loop (promise_id : Nat) : List CodeItem := [.jitLoop promise_id]

/-- Modelled from the spec: `code_gen::wrapper` brackets a complete body
with the prologue/epilogue. -/
def wrapper (body : List CodeItem) : List CodeItem := [.wrapped body]

mutual

/-- `enum JITPromise` (`src/runnable/jit_target.rs`): holds ASTNodes for
later compilation (`Deferred`) or a compiled sub-target (`Compiled`). -/
inductive JITPromise where
  | Deferred (body : List ASTNode)
  | Compiled (target : JITTarget)

/-- `struct JITTarget`: container for executable bytes and the promise
table (`loops`). -/
inductive JITTarget where
  | mk (bytes : List CodeItem) (loops : List JITPromise)

end

/-- The `bytes` field of `JITTarget`. -/
def JITTarget.bytes : JITTarget → List CodeItem
  | .mk b _ => b

/-- The `loops` field (promise table) of `JITTarget`. -/
def JITTarget.loops : JITTarget → List JITPromise
  | .mk _ l => l

/-- The outcomes of the host syscalls that `make_executable` performs
(page size from `sysconf`, and the return values of `posix_memalign` and
`mprotect`, 0 on success). -/
structure SysEnv where
  page_size : Nat
  posix_memalign_ret : Int
  mprotect_ret : Int
deriving DecidableEq

/-- `int_ceil` (`src/runnable/jit_target.rs` lines 38-40): "round up an
integer division".  The source computes `(numerator / denominator + 1) *
denominator` in `usize`, so the product wraps modulo `2 ^ 64` on
overflow (release-mode semantics). -/
def int_ceil (numerator denominator : Nat) : Nat :=
  ((numerator / denominator + 1) * denominator) % (2 ^ 64)

/-- `make_executable` (`src/runnable/jit_target.rs` lines 43-66): clone a
vector of bytes into executable memory pages.  The source calls
`posix_memalign`, `mprotect` and `memset` and DISCARDS their return
values (the bindings below mirror those ignored calls); the resulting
region holds the emitted bytes followed by single-byte `ret` filler up
to the rounded-up size. -/
def make_executable (env : SysEnv) (source : List CodeItem) : List CodeItem :=
  let size := int_ceil source.length env.page_size
  let _alloc_ret := env.posix_memalign_ret
  let _prot_ret := env.mprotect_ret
  source ++ List.replicate (size - source.length) CodeItem.ret

/-- `JITTarget::shallow_compile`, `compile_loop` and `defer_loop`
(`src/runnable/jit_target.rs` lines 119-158), with the promise table
threaded as explicit state.  A `Loop` body longer than `0x16` nodes is
deferred (pushed as a `Deferred` promise, emitting `jit_loop` with index
`loops.len() - 1`); otherwise it is compiled ahead of time.  The two
helpers are inlined here so the recursion is plainly well-founded;
`compile_loop` and `defer_loop` below restate them and are proved to
agree with the corresponding branches. -/
def shallow_compile : List ASTNode → List JITPromise → List CodeItem × List JITPromise
  | [], loops => ([], loops)
  | .Incr n :: rest, loops =>
    match shallow_compile rest loops with
    | (bs, loops2) => (CodeItem.incr n :: bs, loops2)
  | .Decr n :: rest, loops =>
    match shallow_compile rest loops with
    | (bs, loops2) => (CodeItem.decr n :: bs, loops2)
  | .Next n :: rest, loops =>
    match shallow_compile rest loops with
    | (bs, loops2) => (CodeItem.next n :: bs, loops2)
  | .Prev n :: rest, loops =>
    match shallow_compile rest loops with
    | (bs, loops2) => (CodeItem.prev n :: bs, loops2)
  | .Print :: rest, loops =>
    match shallow_compile rest loops with
    | (bs, loops2) => (CodeItem.print :: bs, loops2)
  | .Read :: rest, loops =>
    match shallow_compile rest loops with
    | (bs, loops2) => (CodeItem.read :: bs, loops2)
  | .Loop body :: rest, loops =>
    if body.length > 0x16 then
      match shallow_compile rest (loops ++ [JITPromise.Deferred body]) with
      | (bs, loops2) =>
        (jit_loop ((loops ++ [JITPromise.Deferred body]).length - 1) ++ bs, loops2)
    else
      match shallow_compile body loops with
      | (inner, loops2) =>
        match shallow_compile rest loops2 with
        | (bs, loops3) => (aot_loop inner ++ bs, loops3)

/-- `JITTarget::defer_loop` (`src/runnable/jit_target.rs` lines 150-158):
push the cloned body as a `Deferred` promise, then emit a `jit_loop`
referencing index `loops.len() - 1`. -/
def defer_loop (nodes : List ASTNode) (loops : List JITPromise) :
    List CodeItem × List JITPromise :=
  let loops2 := loops ++ [JITPromise.Deferred nodes]
  (jit_loop (loops2.length - 1), loops2)

/-- `JITTarget::compile_loop` (`src/runnable/jit_target.rs` lines
141-147): AOT-compile a loop by shallow-compiling its body and wrapping
the bytes with `aot_loop`. -/
def compile_loop (nodes : List ASTNode) (loops : List JITPromise) :
    List CodeItem × List JITPromise :=
  match shallow_compile nodes loops with
  | (inner, loops2) => (aot_loop inner, loops2)

/-- `JITTarget::new` for `target_arch = "x86_64"`
(`src/runnable/jit_target.rs` lines 85-96): shallow-compile the program,
wrap it, install it into executable memory, and return `Ok`
unconditionally. -/
def JITTarget.new (env : SysEnv) (nodes : List ASTNode) : Except String JITTarget :=
  match shallow_compile nodes [] with
  | (body, loops) => .ok (JITTarget.mk (make_executable env (wrapper body)) loops)

/-- `JITTarget::new` for unsupported architectures
(`src/runnable/jit_target.rs` lines 99-102). -/
def JITTarget.new_unsupported : Except String JITTarget :=
  .error "Unsupported JIT architecture."

/-- `JITTarget::new_fragment` (`src/runnable/jit_target.rs` lines
104-114): same as the top-level compile but the body is wrapped through
`compile_loop` (the fragment loops while the cell is non-zero). -/
def new_fragment (env : SysEnv) (nodes : List ASTNode) : JITTarget :=
  match compile_loop nodes [] with
  | (body, loops) => JITTarget.mk (make_executable env (wrapper body)) loops

/-- Modelled from the spec: `JITTarget::exec` runs the target's native
bytes, which may re-enter `jit_callback` and thereby update the
target's own (nested) promise tables before returning the updated tape
pointer.  Native execution is outside the embedding, so one execution of
a fragment entry point is abstracted as a function from the fragment and
the tape pointer to the (possibly updated) fragment and returned tape
pointer. -/
def ExecFn : Type := JITTarget → Nat → JITTarget × Nat

/-- Replace entry `i` of the promise table (the in-place assignment
`*jit_promise = ...` / the in-place mutation through `&mut self.loops[i]`
in the source). -/
def setLoop (t : JITTarget) (i : Nat) (p : JITPromise) : JITTarget :=
  JITTarget.mk t.bytes (t.loops.set i p)

/-- `JITTarget::jit_callback` (`src/runnable/jit_target.rs` lines
173-189).  The source indexes `self.loops[loop_index]` (a panic when out
of bounds, embedded as `none`).  A `Deferred` body is compiled with
`new_fragment`, executed once against the provided tape pointer, and the
entry is replaced by `Compiled`; a `Compiled` fragment is executed in
place. -/
def jit_callback (execFn : ExecFn) (env : SysEnv) (t : JITTarget)
    (loop_index : Nat) (mem_ptr : Nat) : Option (JITTarget × Nat) :=
  match t.loops[loop_index]? with
  | none => none
  | some (.Deferred nodes) =>
    match execFn (new_fragment env nodes) mem_ptr with
    | (new_target, return_ptr) =>
      some (setLoop t loop_index (.Compiled new_target), return_ptr)
  | some (.Compiled jit_target) =>
    match execFn jit_target mem_ptr with
    | (jit_target2, return_ptr) =>
      some (setLoop t loop_index (.Compiled jit_target2), return_ptr)

/-- `jit_functions::read` (`src/runnable/jit_target.rs` lines 29-31):
`getchar() as u8`.  The host `getchar` result (a C `int`, `-1` at end of
input) is abstracted as the argument; the `as u8` cast keeps the low 8
bits (two's-complement truncation). -/
def jit_functions.read (getchar_ret : Int) : Nat :=
  (getchar_ret % 256).toNat

/-- The driver's runner choice (`src/main.rs` lines 62-73). -/
inductive Runner where
  | interpreter
  | jit (target : JITTarget)

/-- `main`'s runner selection (`src/main.rs` lines 62-73): interpreter
when `--int` is passed, otherwise JIT, falling back to the interpreter
when `JITTarget::new` returns an error. -/
def select_runnable (flag_int : Bool) (jit_result : Except String JITTarget) :
    Runner :=
  if flag_int then .interpreter
  else
    match jit_result with
    | .ok jit_target => .jit jit_target
    | .error _ => .interpreter

/-- The fusible variants carry a tag (`Incr`, `Decr`, `Next`, `Prev`);
other variants have none. -/
def fusibleTag : ASTNode → Option Nat
  | .Incr _ => some 0
  | .Decr _ => some 1
  | .Next _ => some 2
  | .Prev _ => some 3
  | _ => none

/-- Two nodes are the same fusible variant: both `Incr`, both `Decr`,
both `Next`, or both `Prev`. -/
def sameFusible : ASTNode → ASTNode → Bool
  | .Incr _, .Incr _ => true
  | .Decr _, .Decr _ => true
  | .Next _, .Next _ => true
  | .Prev _, .Prev _ => true
  | _, _ => false

/-- No two adjacent nodes of a body are the same fusible variant (the
run-length normal form at one nesting level). -/
def noAdjacentFusible : List ASTNode → Bool
  | [] => true
  | [_] => true
  | a :: b :: rest => !sameFusible a b && noAdjacentFusible (b :: rest)

mutual

/-- Every `Loop` body nested inside the node is in run-length normal
form. -/
def nodeNormal : ASTNode → Bool
  | .Loop body => noAdjacentFusible body && bodyNormal body
  | _ => true

/-- Every `Loop` body nested inside any node of the list is in
run-length normal form. -/
def bodyNormal : List ASTNode → Bool
  | [] => true
  | x :: xs => nodeNormal x && bodyNormal xs

end

/-- A body is in run-length normal form at every nesting depth: no two
adjacent nodes at the top of the body nor inside any nested `Loop` are
the same fusible variant. -/
def deepNormal (body : List ASTNode) : Bool :=
  noAdjacentFusible body && bodyNormal body

/-- Bracket scan over the source characters, tracking the number of
currently open `[`: `none` when some `]` closes with no open loop,
otherwise the number of loops left open at end of input.  The square
brackets of a string are balanced and well nested exactly when the scan
returns `some 0`. -/
def bracketScan : List Char → Nat → Option Nat
  | [], depth => some depth
  | c :: rest, depth =>
    if c = '[' then bracketScan rest (depth + 1)
    else if c = ']' then
      match depth with
      | 0 => none
      | d + 1 => bracketScan rest d
    else bracketScan rest depth

/-- The body enclosing the innermost open loop once that loop has been
popped: the next open loop if any, else the top-level output.  (This is
the "output at the current nesting level" of the claim about loop
elision.) -/
def enclosingBody (st : ParseState) (rest : List (List ASTNode)) :
    List ASTNode :=
  match rest with
  | [] => st.output
  | e :: _ => e

/-- All promise ids referenced by `jitLoop` items anywhere in a code
sequence (descending into `aotLoop` and `wrapper` bodies). -/
def codeIds : List CodeItem → List Nat
  | [] => []
  | .jitLoop i :: rest => i :: codeIds rest
  | .aotLoop body :: rest => codeIds body ++ codeIds rest
  | .wrapped body :: rest => codeIds body ++ codeIds rest
  | .incr _ :: rest => codeIds rest
  | .decr _ :: rest => codeIds rest
  | .next _ :: rest => codeIds rest
  | .prev _ :: rest => codeIds rest
  | .print :: rest => codeIds rest
  | .read :: rest => codeIds rest
  | .ret :: rest => codeIds rest

/-- C10, counterexample: the source computes `(n / d + 1) * d` in
`usize`, which wraps; at the representable input `n = 2 ^ 64 - 1`,
`d = 1` the program returns `0`, which is neither `(n / d + 1) * d` nor
strictly greater than `n`, refuting the for-every-numerator claim. -/
theorem int_ceil_overflow_cex :
    (0 : Nat) < 1 ∧
    int_ceil (2 ^ 64 - 1) 1 = 0 ∧
    int_ceil (2 ^ 64 - 1) 1 ≠ ((2 ^ 64 - 1) / 1 + 1) * 1 ∧
    ¬ (2 ^ 64 - 1 < int_ceil (2 ^ 64 - 1) 1) := by
  have he : int_ceil (2 ^ 64 - 1) 1 = 0 := by
    unfold int_ceil
    norm_num
  refine ⟨by norm_num, he, ?_, ?_⟩
  · rw [he]
    norm_num
  · rw [he]
    norm_num

/-- C10, amended: for every numerator `n` and denominator `d > 0` such
that `(n / d + 1) * d` does not overflow `usize`, `int_ceil n d` is
`(n / d + 1) * d`, a multiple of `d` strictly greater than `n`; when
`d` divides `n` the result is `n + d` (one extra page for an exact page
multiple), and an empty buffer still receives a full page (for any
representable page size).  On overflow the `usize` product wraps
instead. -/
theorem int_ceil_spec (n d : Nat) (h : 0 < d)
    (hw : (n / d + 1) * d < 2 ^ 64) :
    int_ceil n d = (n / d + 1) * d ∧
    d ∣ int_ceil n d ∧
    n < int_ceil n d ∧
    (d ∣ n → int_ceil n d = n + d) ∧
    (d < 2 ^ 64 → int_ceil 0 d = d) := by
  have he : int_ceil n d = (n / d + 1) * d := by
    unfold int_ceil
    exact Nat.mod_eq_of_lt hw
  refine ⟨he, ?_, ?_, ?_, ?_⟩
  · rw [he]
    exact dvd_mul_left d (n / d + 1)
  · rw [he]
    exact (Nat.div_lt_iff_lt_mul h).mp (Nat.lt_succ_self (n / d))
  · intro hdvd
    rw [he, Nat.add_mul, Nat.one_mul, Nat.div_mul_cancel hdvd]
  · intro hd64
    unfold int_ceil
    rw [Nat.zero_div, Nat.zero_add, Nat.one_mul]
    exact Nat.mod_eq_of_lt hd64

/-- Witness for `int_ceil_spec` at `n = 8`, `d = 4`. -/
theorem int_ceil_spec_witness :
    (0 < 4 ∧ (8 / 4 + 1) * 4 < 2 ^ 64) ∧
    (int_ceil 8 4 = (8 / 4 + 1) * 4 ∧
     4 ∣ int_ceil 8 4 ∧
     8 < int_ceil 8 4 ∧
     (4 ∣ 8 → int_ceil 8 4 = 8 + 4) ∧
     (4 < 2 ^ 64 → int_ceil 0 4 = 4)) :=
  ⟨⟨by norm_num, by norm_num⟩, int_ceil_spec 8 4 (by norm_num) (by norm_num)⟩

/-- C8: the `Read` host primitive returns exactly the low 8 bits of the
host `getchar` result; at end of input (`getchar` returning `-1`) it
yields `0xFF`. -/
theorem read_returns_low_8_bits :
    (∀ r : Int, (jit_functions.read r : Int) = r % 256 ∧
      jit_functions.read r < 256) ∧
    jit_functions.read (-1) = 0xFF := by
  refine ⟨fun r => ⟨?_, ?_⟩, by decide⟩
  · have h0 : 0 ≤ r % 256 := Int.emod_nonneg r (by norm_num)
    simp [jit_functions.read, Int.toNat_of_nonneg h0]
  · have h0 : 0 ≤ r % 256 := Int.emod_nonneg r (by norm_num)
    have h1 : r % 256 < 256 := Int.emod_lt_of_pos r (by norm_num)
    simp only [jit_functions.read]
    omega

/-- C5, counterexample: with the allocation and protection syscalls both
reporting failure, `JITTarget::new` on the supported architecture still
returns `Ok` — the source discards the return values of `posix_memalign`
and `mprotect`, so no installation failure can surface as an `Err`. -/
theorem jit_new_ok_despite_failure_cex :
    (SysEnv.mk 4096 12 (-1)).posix_memalign_ret ≠ 0 ∧
    (SysEnv.mk 4096 12 (-1)).mprotect_ret ≠ 0 ∧
    JITTarget.new (SysEnv.mk 4096 12 (-1)) [] =
      .ok (JITTarget.mk (make_executable (SysEnv.mk 4096 12 (-1)) (wrapper [])) []) := by
  refine ⟨by decide, by decide, ?_⟩
  simp [JITTarget.new, shallow_compile]

/-- C5, amended: on the supported architecture `JITTarget::new` always
returns `Ok`, regardless of the outcomes of page allocation, alignment
or protection change (their results are ignored); the only construction
error is the unsupported-architecture message, and on any construction
error the driver falls back to the interpreter. -/
theorem jit_new_total_and_driver_fallback :
    (∀ (env : SysEnv) (nodes : List ASTNode),
      ∃ t, JITTarget.new env nodes = .ok t) ∧
    JITTarget.new_unsupported = .error "Unsupported JIT architecture." ∧
    (∀ msg, select_runnable false (.error msg) = .interpreter) := by
  refine ⟨fun env nodes => ?_, rfl, fun msg => rfl⟩
  rcases h : shallow_compile nodes [] with ⟨body, loops⟩
  refine ⟨JITTarget.mk (make_executable env (wrapper body)) loops, ?_⟩
  simp [JITTarget.new, h]

set_option maxRecDepth 4096 in
/-- C1, counterexample: in the state reached after `"[+["` the top-level
output is empty while the immediately enclosing body `[Incr 1]` is not;
the claim says the `]` step must keep the popped body, but the code
checks the top-level output and discards it. -/
theorem loop_elision_cex :
    List.foldlM parseStep ⟨[], []⟩ "[+[".data =
      .ok ⟨[], [[], [.Incr 1]]⟩ ∧
    enclosingBody ⟨[], [[], [.Incr 1]]⟩ [[.Incr 1]] = [.Incr 1] ∧
    parseStep ⟨[], [[], [.Incr 1]]⟩ ']' = .ok ⟨[], [[.Incr 1]]⟩ ∧
    parseStep ⟨[], [[], [.Incr 1]]⟩ ']' ≠
      .ok (pushNode ⟨[], [[.Incr 1]]⟩ (.Loop (shallow_run_length_optimize []))) := by
  decide

/-- C1, amended: when a `]` is processed, the popped loop body is
discarded if and only if the TOP-LEVEL output is empty at that moment
(regardless of the nesting level); otherwise the popped body is
optimized, wrapped in `Loop`, and appended to the enclosing body. -/
theorem loop_elision_checks_top_level_output (st : ParseState)
    (cur : List ASTNode) (rest : List (List ASTNode))
    (h : st.loops = cur :: rest) :
    (st.output = [] → parseStep st ']' = .ok ⟨st.output, rest⟩) ∧
    (st.output ≠ [] → parseStep st ']' =
      .ok (pushNode ⟨st.output, rest⟩
        (.Loop (shallow_run_length_optimize cur)))) ∧
    (parseStep st ']' = .ok ⟨st.output, rest⟩ → st.output = []) := by
  refine ⟨fun he => ?_, fun hne => ?_, fun hok => ?_⟩
  · simp [parseStep, h, he]
  · simp [parseStep, h, List.isEmpty_iff, hne]
  · by_contra hne
    rw [show parseStep st ']' =
        .ok (pushNode ⟨st.output, rest⟩
          (.Loop (shallow_run_length_optimize cur))) from by
      simp [parseStep, h, List.isEmpty_iff, hne]] at hok
    injection hok with hok
    cases rest with
    | nil =>
      simp only [pushNode] at hok
      have := congrArg (fun s => s.output.length) hok
      simp at this
    | cons e r =>
      simp only [pushNode] at hok
      have := congrArg (fun s => (s.loops.headI).length) hok
      simp [List.headI] at this

/-- Witness for `loop_elision_checks_top_level_output` at a state with
non-empty top-level output. -/
theorem loop_elision_witness :
    parseStep ⟨[.Print], [[.Incr 1]]⟩ ']' =
      .ok (pushNode ⟨[.Print], []⟩
        (.Loop (shallow_run_length_optimize [.Incr 1]))) :=
  (loop_elision_checks_top_level_output ⟨[.Print], [[.Incr 1]]⟩
    [.Incr 1] [] rfl).2.1 (by decide)

set_option maxRecDepth 16384 in
/-- C7: run-length fusion adds the two counts with wrapping arithmetic —
modulo 256 for `Incr`/`Decr`, modulo the machine word for `Next`/`Prev`
— and 256 consecutive `+` parse to a single `Incr(0)`. -/
theorem run_length_fusion_wrapping :
    (∀ (out : List ASTNode) (a b : Nat),
      srlo_step (out ++ [.Incr b]) (.Incr a) = out ++ [.Incr ((a + b) % 256)] ∧
      srlo_step (out ++ [.Decr b]) (.Decr a) = out ++ [.Decr ((a + b) % 256)] ∧
      srlo_step (out ++ [.Next b]) (.Next a) = out ++ [.Next ((a + b) % 2 ^ 64)] ∧
      srlo_step (out ++ [.Prev b]) (.Prev a) = out ++ [.Prev ((a + b) % 2 ^ 64)]) ∧
    parse (String.mk (List.replicate 256 '+')) = .ok ⟨[.Incr 0]⟩ := by
  constructor
  · intro out a b
    refine ⟨?_, ?_, ?_, ?_⟩ <;>
      simp [srlo_step, List.getLast?_concat, List.dropLast_concat, combine,
        u8_wrapping_add, usize_wrapping_add]
  · decide


/-- C3: during shallow compilation a `Loop` whose body has more than 22
IR nodes is deferred — its body is pushed as a `Deferred` promise at the
END of the owning target's promise table and a `jit_loop` referencing
that promise's index is emitted — while a `Loop` whose body has at most
22 nodes is inlined by recursively shallow-compiling it and wrapping the
bytes with `aot_loop`. -/
theorem shallow_compile_loop_policy (body rest : List ASTNode)
    (loops : List JITPromise) :
    (body.length > 22 →
      shallow_compile (.Loop body :: rest) loops =
        ((defer_loop body loops).1 ++
            (shallow_compile rest (defer_loop body loops).2).1,
          (shallow_compile rest (defer_loop body loops).2).2) ∧
      defer_loop body loops =
        ([CodeItem.jitLoop loops.length], loops ++ [JITPromise.Deferred body])) ∧
    (body.length ≤ 22 →
      shallow_compile (.Loop body :: rest) loops =
        ((compile_loop body loops).1 ++
            (shallow_compile rest (compile_loop body loops).2).1,
          (shallow_compile rest (compile_loop body loops).2).2) ∧
      compile_loop body loops =
        ([CodeItem.aotLoop (shallow_compile body loops).1],
          (shallow_compile body loops).2)) := by
  constructor
  · intro h
    constructor
    · rcases hp : shallow_compile rest (loops ++ [JITPromise.Deferred body]) with ⟨bs, l2⟩
      simp [shallow_compile, h, defer_loop, jit_loop, hp]
    · simp [defer_loop, jit_loop]
  · intro h
    have h' : ¬ body.length > 0x16 := by omega
    constructor
    · rcases hb : shallow_compile body loops with ⟨inner, l2⟩
      rcases hp : shallow_compile rest l2 with ⟨bs, l3⟩
      simp [shallow_compile, h', compile_loop, aot_loop, hb, hp]
    · rcases hb : shallow_compile body loops with ⟨inner, l2⟩
      simp [compile_loop, aot_loop, hb]

/-- Witness for `shallow_compile_loop_policy`: a 23-node body is
deferred, a 1-node body is inlined. -/
theorem shallow_compile_loop_policy_witness :
    ((List.replicate 23 ASTNode.Print).length > 22 ∧
      (shallow_compile [.Loop (List.replicate 23 ASTNode.Print)] [] =
        ((defer_loop (List.replicate 23 ASTNode.Print) []).1 ++
            (shallow_compile []
              (defer_loop (List.replicate 23 ASTNode.Print) []).2).1,
          (shallow_compile []
            (defer_loop (List.replicate 23 ASTNode.Print) []).2).2) ∧
      defer_loop (List.replicate 23 ASTNode.Print) [] =
        ([CodeItem.jitLoop (List.length ([] : List JITPromise))],
          ([] : List JITPromise) ++
            [JITPromise.Deferred (List.replicate 23 ASTNode.Print)]))) ∧
    ([ASTNode.Print].length ≤ 22 ∧
      (shallow_compile [.Loop [ASTNode.Print]] [] =
        ((compile_loop [ASTNode.Print] []).1 ++
            (shallow_compile [] (compile_loop [ASTNode.Print] []).2).1,
          (shallow_compile [] (compile_loop [ASTNode.Print] []).2).2) ∧
      compile_loop [ASTNode.Print] [] =
        ([CodeItem.aotLoop (shallow_compile [ASTNode.Print] []).1],
          (shallow_compile [ASTNode.Print] []).2))) :=
  ⟨⟨by decide,
    (shallow_compile_loop_policy (List.replicate 23 .Print) [] []).1 (by decide)⟩,
   ⟨by decide,
    (shallow_compile_loop_policy [.Print] [] []).2 (by decide)⟩⟩

/-- C4: a promise-table entry transitions at most once, from `Deferred`
to `Compiled`, and never back.  The first callback invocation finding
`Deferred(body)` compiles a fragment, executes it once against the
provided tape pointer, replaces the entry with `Compiled`, and returns
the updated tape pointer; an invocation finding `Compiled` only invokes
the existing fragment (the entry stays `Compiled`, updated solely by
that fragment's own execution); entries at other indices are untouched. -/
theorem jit_callback_promise_transition (execFn : ExecFn) (env : SysEnv)
    (t : JITTarget) (i : Nat) (p : Nat) :
    (∀ body, t.loops[i]? = some (.Deferred body) →
      jit_callback execFn env t i p =
        some (setLoop t i (.Compiled (execFn (new_fragment env body) p).1),
          (execFn (new_fragment env body) p).2) ∧
      (setLoop t i (.Compiled (execFn (new_fragment env body) p).1)).loops[i]? =
        some (.Compiled (execFn (new_fragment env body) p).1)) ∧
    (∀ f, t.loops[i]? = some (.Compiled f) →
      jit_callback execFn env t i p =
        some (setLoop t i (.Compiled (execFn f p).1), (execFn f p).2) ∧
      (setLoop t i (.Compiled (execFn f p).1)).loops[i]? =
        some (.Compiled (execFn f p).1)) ∧
    (∀ t2 p2, jit_callback execFn env t i p = some (t2, p2) →
      ∀ j, j ≠ i → t2.loops[j]? = t.loops[j]?) := by
  rcases t with ⟨tb, tl⟩
  have hlt : ∀ (x : JITPromise), tl[i]? = some x → i < tl.length := by
    intro x hx
    by_contra hge
    rw [List.getElem?_eq_none (Nat.le_of_not_lt hge)] at hx
    cases hx
  refine ⟨fun body hb => ⟨?_, ?_⟩, fun f hf => ⟨?_, ?_⟩, fun t2 p2 hcb j hj => ?_⟩
  · simp only [JITTarget.loops] at hb
    rcases hx : execFn (new_fragment env body) p with ⟨nt, rp⟩
    simp [jit_callback, JITTarget.loops, hb, hx]
  · simp only [JITTarget.loops] at hb
    simp [setLoop, JITTarget.loops, List.getElem?_set_eq_of_lt _ (hlt _ hb)]
  · simp only [JITTarget.loops] at hf
    rcases hx : execFn f p with ⟨nt, rp⟩
    simp [jit_callback, JITTarget.loops, hf, hx]
  · simp only [JITTarget.loops] at hf
    simp [setLoop, JITTarget.loops, List.getElem?_set_eq_of_lt _ (hlt _ hf)]
  · simp only [jit_callback, JITTarget.loops] at hcb
    rcases hgi : tl[i]? with _ | pr
    · rw [hgi] at hcb
      cases hcb
    · rw [hgi] at hcb
      cases pr with
      | Deferred body =>
        dsimp only at hcb
        rcases hx : execFn (new_fragment env body) p with ⟨nt, rp⟩
        rw [hx] at hcb
        injection hcb with hcb
        obtain ⟨h2, h3⟩ := Prod.mk.inj hcb
        subst h2
        simp [setLoop, JITTarget.loops, List.getElem?_set_ne (Ne.symm hj)]
      | Compiled f =>
        dsimp only at hcb
        rcases hx : execFn f p with ⟨nt, rp⟩
        rw [hx] at hcb
        injection hcb with hcb
        obtain ⟨h2, h3⟩ := Prod.mk.inj hcb
        subst h2
        simp [setLoop, JITTarget.loops, List.getElem?_set_ne (Ne.symm hj)]

/-- Witness for `jit_callback_promise_transition`: first invocation on a
one-entry table holding a `Deferred` body. -/
theorem jit_callback_promise_transition_witness :
    jit_callback (fun t p => (t, p + 1)) ⟨4096, 0, 0⟩
        (JITTarget.mk [] [JITPromise.Deferred [.Print]]) 0 5 =
      some (setLoop (JITTarget.mk [] [JITPromise.Deferred [.Print]]) 0
          (.Compiled (new_fragment ⟨4096, 0, 0⟩ [.Print])), 6) ∧
    (setLoop (JITTarget.mk [] [JITPromise.Deferred [.Print]]) 0
        (.Compiled (new_fragment ⟨4096, 0, 0⟩ [.Print]))).loops[0]? =
      some (.Compiled (new_fragment ⟨4096, 0, 0⟩ [.Print])) :=
  (jit_callback_promise_transition (fun t p => (t, p + 1)) ⟨4096, 0, 0⟩
    (JITTarget.mk [] [JITPromise.Deferred [.Print]]) 0 5).1 [.Print] rfl

lemma sameFusible_eq_tag (a b : ASTNode) :
    sameFusible a b = ((fusibleTag a).isSome && fusibleTag a == fusibleTag b) := by
  cases a <;> cases b <;> rfl

lemma combine_isSome (a b : ASTNode) :
    (combine a b).isSome = sameFusible a b := by
  cases a <;> cases b <;> rfl

lemma combine_tag {a b c : ASTNode} (h : combine a b = some c) :
    fusibleTag c = fusibleTag a := by
  cases a <;> cases b <;> first
    | exact Option.noConfusion h
    | (injection h with h2; subst h2; rfl)

lemma combine_nodeNormal {a b c : ASTNode} (h : combine a b = some c) :
    nodeNormal c = true := by
  cases a <;> cases b <;> first
    | exact Option.noConfusion h
    | (injection h with h2; subst h2; simp [nodeNormal])

lemma noAdjacentFusible_snoc (xs : List ASTNode) (y : ASTNode) :
    noAdjacentFusible (xs ++ [y]) = true ↔
      (noAdjacentFusible xs = true ∧
        ∀ l, xs.getLast? = some l → sameFusible l y = false) := by
  induction xs with
  | nil => simp [noAdjacentFusible]
  | cons a tail ih =>
    cases tail with
    | nil =>
      simp [noAdjacentFusible, List.getLast?]
    | cons b rest =>
      have e1 : noAdjacentFusible ((a :: b :: rest) ++ [y]) =
          (!sameFusible a b && noAdjacentFusible ((b :: rest) ++ [y])) := rfl
      have e2 : noAdjacentFusible (a :: b :: rest) =
          (!sameFusible a b && noAdjacentFusible (b :: rest)) := rfl
      rw [e1, e2, List.getLast?_cons_cons, Bool.and_eq_true, Bool.and_eq_true, ih]
      tauto

lemma getLast?_decomp {xs : List ASTNode} {l : ASTNode}
    (h : xs.getLast? = some l) : xs = xs.dropLast ++ [l] := by
  cases xs with
  | nil => cases h
  | cons a t =>
    have hne : (a :: t) ≠ [] := by simp
    rw [List.getLast?_eq_getLast _ hne] at h
    injection h with h
    rw [← h]
    exact (List.dropLast_append_getLast hne).symm

lemma srlo_step_naf {out : List ASTNode} (n : ASTNode)
    (h : noAdjacentFusible out = true) :
    noAdjacentFusible (srlo_step out n) = true := by
  rcases hl : out.getLast? with _ | prev
  · have hnil : out = [] := by
      cases out with
      | nil => rfl
      | cons a t => rw [List.getLast?_eq_getLast _ (by simp)] at hl; cases hl
    subst hnil
    simp [srlo_step, noAdjacentFusible]
  · rcases hc : combine prev n with _ | c
    · have heq : srlo_step out n = out ++ [n] := by
        simp only [srlo_step, hl, hc]
      have hs : sameFusible prev n = false := by
        have hi := combine_isSome prev n
        rw [hc] at hi
        simpa using hi.symm
      rw [heq, noAdjacentFusible_snoc]
      refine ⟨h, fun l hl2 => ?_⟩
      rw [hl2] at hl
      injection hl with hl
      rw [hl]
      exact hs
    · have heq : srlo_step out n = out.dropLast ++ [c] := by
        simp only [srlo_step, hl, hc]
      have hdecomp := getLast?_decomp hl
      have h' : noAdjacentFusible (out.dropLast ++ [prev]) = true := by
        rw [← hdecomp]; exact h
      rw [noAdjacentFusible_snoc] at h'
      rw [heq, noAdjacentFusible_snoc]
      refine ⟨h'.1, fun l hl2 => ?_⟩
      have hsame := h'.2 l hl2
      rw [sameFusible_eq_tag, combine_tag hc, ← sameFusible_eq_tag]
      exact hsame

lemma srlo_naf (input : List ASTNode) :
    ∀ acc, noAdjacentFusible acc = true →
      noAdjacentFusible (List.foldl srlo_step acc input) = true := by
  induction input with
  | nil => intro acc h; simpa using h
  | cons x xs ih =>
    intro acc h
    rw [List.foldl_cons]
    exact ih _ (srlo_step_naf x h)

lemma naf_srlo (input : List ASTNode) :
    noAdjacentFusible (shallow_run_length_optimize input) = true :=
  srlo_naf input [] rfl

lemma bodyNormal_append (xs ys : List ASTNode) :
    bodyNormal (xs ++ ys) = (bodyNormal xs && bodyNormal ys) := by
  induction xs with
  | nil => simp [bodyNormal]
  | cons a t ih => simp [bodyNormal, ih, Bool.and_assoc]

lemma srlo_step_bodyNormal {out : List ASTNode} {n : ASTNode}
    (h1 : bodyNormal out = true) (h2 : nodeNormal n = true) :
    bodyNormal (srlo_step out n) = true := by
  rcases hl : out.getLast? with _ | prev
  · have heq : srlo_step out n = out ++ [n] := by
      simp only [srlo_step, hl]
    rw [heq]
    simp [bodyNormal_append, h1, bodyNormal, h2]
  · rcases hc : combine prev n with _ | c
    · have heq : srlo_step out n = out ++ [n] := by
        simp only [srlo_step, hl, hc]
      rw [heq]
      simp [bodyNormal_append, h1, bodyNormal, h2]
    · have heq : srlo_step out n = out.dropLast ++ [c] := by
        simp only [srlo_step, hl, hc]
      have hdecomp := getLast?_decomp hl
      have h' : bodyNormal (out.dropLast ++ [prev]) = true := by
        rw [← hdecomp]; exact h1
      rw [bodyNormal_append, Bool.and_eq_true] at h'
      rw [heq]
      simp [bodyNormal_append, h'.1, bodyNormal, combine_nodeNormal hc]

lemma srlo_bodyNormal (input : List ASTNode) :
    ∀ acc, bodyNormal acc = true → bodyNormal input = true →
      bodyNormal (List.foldl srlo_step acc input) = true := by
  induction input with
  | nil => intro acc h _; simpa using h
  | cons x xs ih =>
    intro acc h hin
    have hx : nodeNormal x = true ∧ bodyNormal xs = true := by
      simpa [bodyNormal] using hin
    rw [List.foldl_cons]
    exact ih _ (srlo_step_bodyNormal h hx.1) hx.2

lemma pushNode_normal {st : ParseState} {n : ASTNode}
    (h1 : bodyNormal st.output = true)
    (h2 : ∀ b ∈ st.loops, bodyNormal b = true)
    (hn : nodeNormal n = true) :
    bodyNormal (pushNode st n).output = true ∧
      ∀ b ∈ (pushNode st n).loops, bodyNormal b = true := by
  rcases st with ⟨out, loops⟩
  cases loops with
  | nil =>
    refine ⟨?_, ?_⟩
    · simp only [pushNode]
      rw [bodyNormal_append]
      simp only [ParseState.output] at h1 ⊢
      simp [h1, bodyNormal, hn]
    · intro b hb
      simp [pushNode] at hb
  | cons l rest =>
    refine ⟨by simpa [pushNode] using h1, ?_⟩
    intro b hb
    simp only [pushNode, List.mem_cons] at hb
    rcases hb with hb | hb
    · subst hb
      rw [bodyNormal_append]
      simp [h2 l (by simp), bodyNormal, hn]
    · exact h2 b (by simp [hb])

lemma parseStep_normal {st st' : ParseState} {c : Char}
    (h1 : bodyNormal st.output = true)
    (h2 : ∀ b ∈ st.loops, bodyNormal b = true)
    (hs : parseStep st c = .ok st') :
    bodyNormal st'.output = true ∧ ∀ b ∈ st'.loops, bodyNormal b = true := by
  unfold parseStep at hs
  split_ifs at hs
  · injection hs with hs
    subst hs
    exact pushNode_normal h1 h2 (by simp [nodeNormal])
  · injection hs with hs
    subst hs
    exact pushNode_normal h1 h2 (by simp [nodeNormal])
  · injection hs with hs
    subst hs
    exact pushNode_normal h1 h2 (by simp [nodeNormal])
  · injection hs with hs
    subst hs
    exact pushNode_normal h1 h2 (by simp [nodeNormal])
  · injection hs with hs
    subst hs
    exact pushNode_normal h1 h2 (by simp [nodeNormal])
  · injection hs with hs
    subst hs
    exact pushNode_normal h1 h2 (by simp [nodeNormal])
  · injection hs with hs
    subst hs
    refine ⟨h1, ?_⟩
    intro b hb
    simp only [List.mem_cons] at hb
    rcases hb with hb | hb
    · subst hb
      simp [bodyNormal]
    · exact h2 b hb
  · rcases hl : st.loops with _ | ⟨cur, rest⟩
    · simp only [hl] at hs
      cases hs
    · simp only [hl] at hs
      injection hs with hs
      subst hs
      exact ⟨h1, fun b hb => h2 b (by rw [hl]; exact List.mem_cons_of_mem _ hb)⟩
  · rcases hl : st.loops with _ | ⟨cur, rest⟩
    · simp only [hl] at hs
      cases hs
    · simp only [hl] at hs
      injection hs with hs
      subst hs
      have hcur : bodyNormal cur = true :=
        h2 cur (by rw [hl]; exact List.mem_cons_self _ _)
      have hrest : ∀ b ∈ rest, bodyNormal b = true := fun b hb =>
        h2 b (by rw [hl]; exact List.mem_cons_of_mem _ hb)
      refine @pushNode_normal ⟨st.output, rest⟩ _ h1 hrest ?_
      have hnaf := naf_srlo cur
      have hbn := srlo_bodyNormal cur [] (by simp [bodyNormal]) hcur
      simp [nodeNormal, shallow_run_length_optimize] at hnaf hbn ⊢
      exact ⟨hnaf, hbn⟩
  · injection hs with hs
    subst hs
    exact ⟨h1, h2⟩

lemma foldlM_parse_normal (cs : List Char) :
    ∀ st st', bodyNormal st.output = true →
      (∀ b ∈ st.loops, bodyNormal b = true) →
      List.foldlM parseStep st cs = .ok st' →
      bodyNormal st'.output = true ∧
        ∀ b ∈ st'.loops, bodyNormal b = true := by
  induction cs with
  | nil =>
    intro st st' h1 h2 hf
    simp only [List.foldlM_nil] at hf
    injection hf with hf
    subst hf
    exact ⟨h1, h2⟩
  | cons c rest ih =>
    intro st st' h1 h2 hf
    rw [List.foldlM_cons] at hf
    rcases hp : parseStep st c with e | st1 <;> rw [hp] at hf
    · cases hf
    · obtain ⟨g1, g2⟩ := parseStep_normal h1 h2 hp
      exact ih st1 st' g1 g2 hf

/-- C2: every successful parse yields an IR in run-length normal form at
every nesting depth — no body, at top level or inside any `Loop`,
contains two adjacent nodes that are both `Incr`, both `Decr`, both
`Next`, or both `Prev`. -/
theorem parse_run_length_normal_form (s : String) (ast : AST)
    (h : parse s = .ok ast) : deepNormal ast.data = true := by
  unfold parse at h
  rcases hf : List.foldlM parseStep ⟨[], []⟩ s.data with e | st <;> rw [hf] at h
  · cases h
  · obtain ⟨h1, h2⟩ := foldlM_parse_normal s.data ⟨[], []⟩ st
      (by simp [bodyNormal]) (by simp) hf
    replace h : (if st.loops.isEmpty then
        (Except.ok ⟨shallow_run_length_optimize st.output⟩ : Except String AST)
      else .error "More [ than ]") = .ok ast := h
    split_ifs at h
    · injection h with h
      subst h
      have hnaf := naf_srlo st.output
      have hbn := srlo_bodyNormal st.output [] (by simp [bodyNormal]) h1
      simp [deepNormal, shallow_run_length_optimize] at hnaf hbn ⊢
      exact ⟨hnaf, hbn⟩

/-- Witness for `parse_run_length_normal_form` on a concrete program. -/
theorem parse_run_length_normal_form_witness :
    parse "+[->+<]" =
      .ok ⟨[.Incr 1, .Loop [.Decr 1, .Next 1, .Incr 1, .Prev 1]]⟩ ∧
    deepNormal [ASTNode.Incr 1,
      .Loop [.Decr 1, .Next 1, .Incr 1, .Prev 1]] = true :=
  ⟨by decide, parse_run_length_normal_form "+[->+<]" _ (by decide)⟩

lemma pushNode_loops_length (st : ParseState) (n : ASTNode) :
    (pushNode st n).loops.length = st.loops.length := by
  rcases st with ⟨out, loops⟩
  cases loops <;> simp [pushNode]

lemma parseStep_other_spec (out : List ASTNode)
    (loops : List (List ASTNode)) (c : Char)
    (h1 : c ≠ '[') (h2 : c ≠ ']') :
    ∃ st', parseStep ⟨out, loops⟩ c = .ok st' ∧
      st'.loops.length = loops.length := by
  unfold parseStep
  split_ifs with hp hm hg hlt hd hc
  · exact ⟨_, rfl, pushNode_loops_length ..⟩
  · exact ⟨_, rfl, pushNode_loops_length ..⟩
  · exact ⟨_, rfl, pushNode_loops_length ..⟩
  · exact ⟨_, rfl, pushNode_loops_length ..⟩
  · exact ⟨_, rfl, pushNode_loops_length ..⟩
  · exact ⟨_, rfl, pushNode_loops_length ..⟩
  · exact ⟨⟨out, loops⟩, rfl, rfl⟩

lemma parseStep_close_spec (out : List ASTNode) (cur : List ASTNode)
    (restL : List (List ASTNode)) :
    ∃ st', parseStep ⟨out, cur :: restL⟩ ']' = .ok st' ∧
      st'.loops.length = restL.length := by
  by_cases he : out.isEmpty
  · refine ⟨⟨out, restL⟩, ?_, rfl⟩
    show (if out.isEmpty then (Except.ok (ParseState.mk out restL))
        else Except.ok (pushNode (ParseState.mk out restL)
          (ASTNode.Loop (shallow_run_length_optimize cur)))) =
      Except.ok (ParseState.mk out restL)
    rw [if_pos he]
  · refine ⟨pushNode ⟨out, restL⟩ (.Loop (shallow_run_length_optimize cur)),
      ?_, by rw [pushNode_loops_length]⟩
    show (if out.isEmpty then (Except.ok (ParseState.mk out restL))
        else Except.ok (pushNode (ParseState.mk out restL)
          (ASTNode.Loop (shallow_run_length_optimize cur)))) =
      Except.ok (pushNode (ParseState.mk out restL)
        (ASTNode.Loop (shallow_run_length_optimize cur)))
    rw [if_neg he]

lemma bracketScan_other (rest : List Char) (d : Nat) (c : Char)
    (h1 : c ≠ '[') (h2 : c ≠ ']') :
    bracketScan (c :: rest) d = bracketScan rest d := by
  simp only [bracketScan]
  rw [if_neg h1, if_neg h2]

lemma foldlM_parse_scan (cs : List Char) :
    ∀ st : ParseState,
      (∀ st', List.foldlM parseStep st cs = .ok st' →
        bracketScan cs st.loops.length = some st'.loops.length) ∧
      (∀ e, List.foldlM parseStep st cs = .error e →
        e = "More ] than [" ∧ bracketScan cs st.loops.length = none) := by
  induction cs with
  | nil =>
    intro st
    constructor
    · intro st' hf
      simp only [List.foldlM_nil] at hf
      injection hf with hf
      subst hf
      rfl
    · intro e hf
      simp only [List.foldlM_nil] at hf
      cases hf
  | cons c rest ih =>
    intro st
    rcases st with ⟨out, loops⟩
    by_cases hopen : c = '['
    · subst hopen
      constructor
      · intro st' hf
        rw [List.foldlM_cons] at hf
        exact (ih ⟨out, [] :: loops⟩).1 st' hf
      · intro e hf
        rw [List.foldlM_cons] at hf
        exact (ih ⟨out, [] :: loops⟩).2 e hf
    · by_cases hclose : c = ']'
      · subst hclose
        cases loops with
        | nil =>
          constructor
          · intro st' hf
            rw [List.foldlM_cons] at hf
            cases hf
          · intro e hf
            rw [List.foldlM_cons] at hf
            have hf' : (Except.error "More ] than [" :
                Except String ParseState) = .error e := hf
            injection hf' with hf'
            exact ⟨hf'.symm, rfl⟩
        | cons cur restL =>
          obtain ⟨st1, hstep, hlen⟩ := parseStep_close_spec out cur restL
          constructor
          · intro st' hf
            rw [List.foldlM_cons, hstep] at hf
            have h2 := (ih st1).1 st' hf
            rw [hlen] at h2
            exact h2
          · intro e hf
            rw [List.foldlM_cons, hstep] at hf
            have h2 := (ih st1).2 e hf
            rw [hlen] at h2
            exact h2
      · obtain ⟨st1, hstep, hlen⟩ :=
          parseStep_other_spec out loops c hopen hclose
        constructor
        · intro st' hf
          rw [List.foldlM_cons, hstep] at hf
          have h2 := (ih st1).1 st' hf
          rw [hlen] at h2
          rw [bracketScan_other rest _ c hopen hclose]
          exact h2
        · intro e hf
          rw [List.foldlM_cons, hstep] at hf
          have h2 := (ih st1).2 e hf
          rw [hlen] at h2
          rw [bracketScan_other rest _ c hopen hclose]
          exact h2

/-- C6: `AST::parse` succeeds exactly on strings whose square brackets
are balanced and well nested (`bracketScan ... = some 0`); a `]` read
with no open loop yields precisely the unbalanced-close error, open
loops left at end of input yield precisely the unbalanced-open error,
and these are the only two parse errors. -/
theorem parse_balance_characterization (s : String) :
    ((∃ ast, parse s = .ok ast) ↔ bracketScan s.data 0 = some 0) ∧
    (parse s = .error "More ] than [" ↔ bracketScan s.data 0 = none) ∧
    (parse s = .error "More [ than ]" ↔
      (∃ d, bracketScan s.data 0 = some (d + 1))) ∧
    (∀ e, parse s = .error e →
      e = "More ] than [" ∨ e = "More [ than ]") := by
  have H := foldlM_parse_scan s.data ⟨[], []⟩
  rcases hf : List.foldlM parseStep ⟨[], []⟩ s.data with e | st
  · obtain ⟨he, hscan⟩ := H.2 e hf
    subst he
    have hscan0 : bracketScan s.data 0 = none := hscan
    have hp : parse s = .error "More ] than [" := by
      unfold parse
      rw [hf]
      rfl
    refine ⟨?_, ⟨fun _ => hscan0, fun _ => hp⟩, ?_, ?_⟩
    · constructor
      · rintro ⟨ast, ha⟩
        rw [hp] at ha
        cases ha
      · intro hsc
        rw [hscan0] at hsc
        cases hsc
    · constructor
      · intro hperr
        rw [hp] at hperr
        injection hperr with h
        exact absurd h (by decide)
      · rintro ⟨d, hd⟩
        rw [hscan0] at hd
        cases hd
    · intro e' he'
      rw [hp] at he'
      injection he' with h
      exact Or.inl h.symm
  · have hsc := H.1 st hf
    have hscan0 : bracketScan s.data 0 = some st.loops.length := hsc
    cases hl : st.loops with
    | nil =>
      have hp : parse s = .ok ⟨shallow_run_length_optimize st.output⟩ := by
        unfold parse
        rw [hf]
        show (if st.loops.isEmpty then
            (Except.ok ⟨shallow_run_length_optimize st.output⟩ :
              Except String AST)
          else .error "More [ than ]") = _
        rw [hl]
        rfl
      have hscan1 : bracketScan s.data 0 = some 0 := by
        rw [hscan0, hl]
        rfl
      refine ⟨⟨fun _ => hscan1, fun _ => ⟨_, hp⟩⟩, ?_, ?_, ?_⟩
      · constructor
        · intro hperr
          rw [hp] at hperr
          cases hperr
        · intro hn
          rw [hscan1] at hn
          cases hn
      · constructor
        · intro hperr
          rw [hp] at hperr
          cases hperr
        · rintro ⟨d, hd⟩
          rw [hscan1] at hd
          injection hd with hd
          exact absurd hd (by omega)
      · intro e' he'
        rw [hp] at he'
        cases he'
    | cons l restL =>
      have hp : parse s = .error "More [ than ]" := by
        unfold parse
        rw [hf]
        show (if st.loops.isEmpty then
            (Except.ok ⟨shallow_run_length_optimize st.output⟩ :
              Except String AST)
          else .error "More [ than ]") = _
        rw [hl]
        rfl
      have hlen : st.loops.length = restL.length + 1 := by
        rw [hl]
        rfl
      have hscan1 : bracketScan s.data 0 = some (restL.length + 1) := by
        rw [hscan0, hlen]
      refine ⟨?_, ?_, ⟨fun _ => ⟨restL.length, hscan1⟩, fun _ => hp⟩, ?_⟩
      · constructor
        · rintro ⟨ast, ha⟩
          rw [hp] at ha
          cases ha
        · intro h0
          rw [hscan1] at h0
          injection h0 with h0
          exact absurd h0 (by omega)
      · constructor
        · intro hperr
          rw [hp] at hperr
          injection hperr with h
          exact absurd h (by decide)
        · intro hn
          rw [hscan1] at hn
          cases hn
      · intro e' he'
        rw [hp] at he'
        injection he' with h
        exact Or.inr h.symm

/-- Witness for `parse_balance_characterization` on the balanced string
`"[]"`. -/
theorem parse_balance_characterization_witness :
    ∃ ast, parse "[]" = .ok ast :=
  (parse_balance_characterization "[]").1.mpr (by decide)

lemma codeIds_append (xs ys : List CodeItem) :
    codeIds (xs ++ ys) = codeIds xs ++ codeIds ys := by
  induction xs with
  | nil => simp [codeIds]
  | cons x rest ih => cases x <;> simp [codeIds, ih]

lemma codeIds_replicate_ret (k : Nat) :
    codeIds (List.replicate k .ret) = [] := by
  induction k with
  | zero => simp [codeIds]
  | succ n ih => simp [List.replicate, codeIds, ih]

lemma shallow_compile_ids (nodes : List ASTNode) (loops : List JITPromise) :
    (∃ delta, (shallow_compile nodes loops).2 = loops ++ delta) ∧
    (∀ id ∈ codeIds (shallow_compile nodes loops).1,
      id < (shallow_compile nodes loops).2.length) := by
  induction nodes, loops using shallow_compile.induct
  case case1 loops =>
    exact ⟨⟨[], by simp [shallow_compile]⟩, by simp [shallow_compile, codeIds]⟩
  case case2 n rest loops bs loops2 hx ih =>
    simpa [shallow_compile, hx, codeIds] using ih
  case case3 n rest loops bs loops2 hx ih =>
    simpa [shallow_compile, hx, codeIds] using ih
  case case4 n rest loops bs loops2 hx ih =>
    simpa [shallow_compile, hx, codeIds] using ih
  case case5 n rest loops bs loops2 hx ih =>
    simpa [shallow_compile, hx, codeIds] using ih
  case case6 rest loops bs loops2 hx ih =>
    simpa [shallow_compile, hx, codeIds] using ih
  case case7 rest loops bs loops2 hx ih =>
    simpa [shallow_compile, hx, codeIds] using ih
  case case8 body rest loops h bs loops2 hx ih =>
    obtain ⟨⟨delta, hd⟩, hbound⟩ := ih
    rw [hx] at hd hbound
    dsimp only at hd hbound
    constructor
    · refine ⟨[JITPromise.Deferred body] ++ delta, ?_⟩
      simp only [shallow_compile, if_pos h, hx]
      rw [hd, List.append_assoc]
    · intro id hid
      simp only [shallow_compile, if_pos h, hx, jit_loop, codeIds,
        List.cons_append, List.nil_append, List.mem_cons] at hid ⊢
      rcases hid with rfl | hid
      · have hlen : loops2.length =
            (loops ++ [JITPromise.Deferred body] ++ delta).length := by
          rw [hd]
        simp at hlen
        simp
        omega
      · have := hbound id hid
        simpa using this
  case case9 body rest loops h inner l2 hxb bs loops3 hxr ihb ihr =>
    obtain ⟨⟨d1, hd1⟩, hb1⟩ := ihb
    obtain ⟨⟨d2, hd2⟩, hb2⟩ := ihr
    rw [hxb] at hd1 hb1
    rw [hxr] at hd2 hb2
    dsimp only at hd1 hb1 hd2 hb2
    constructor
    · refine ⟨d1 ++ d2, ?_⟩
      simp only [shallow_compile, if_neg h, hxb, hxr]
      rw [hd2, hd1, List.append_assoc]
    · intro id hid
      simp only [shallow_compile, if_neg h, hxb, hxr, aot_loop, codeIds,
        List.cons_append, List.nil_append, List.mem_append] at hid ⊢
      rcases hid with hid | hid
      · have hb := hb1 id hid
        have hle : l2.length ≤ loops3.length := by
          rw [hd2]
          simp
        omega
      · exact hb2 id hid

/-- C9: every promise id emitted during shallow compilation is the index
of an entry of the final promise table (the table only ever grows by
appending, and `defer_loop` emits `loops.len() - 1` right after its
push), so the callback's `self.loops[loop_index]` lookup on a freshly
built target is always in bounds. -/
theorem emitted_promise_ids_in_bounds (nodes : List ASTNode)
    (loops : List JITPromise) :
    (∃ new_entries, (shallow_compile nodes loops).2 = loops ++ new_entries) ∧
    (∀ id ∈ codeIds (shallow_compile nodes loops).1,
      id < (shallow_compile nodes loops).2.length) ∧
    (∀ env t, JITTarget.new env nodes = .ok t →
      ∀ id ∈ codeIds t.bytes, id < t.loops.length) := by
  obtain ⟨hpre, hbound⟩ := shallow_compile_ids nodes loops
  refine ⟨hpre, hbound, ?_⟩
  intro env t h
  rcases hsc : shallow_compile nodes [] with ⟨body0, loops0⟩
  simp only [JITTarget.new, hsc] at h
  injection h with h
  subst h
  intro id hid
  simp only [JITTarget.bytes, JITTarget.loops] at hid ⊢
  simp only [make_executable, wrapper] at hid
  rw [codeIds_append, codeIds_replicate_ret] at hid
  simp only [codeIds, List.append_nil, List.nil_append, List.mem_append] at hid
  have hb := (shallow_compile_ids nodes []).2 id
    (by rw [hsc]; simpa using hid)
  rw [hsc] at hb
  simpa using hb

/-- Witness for `emitted_promise_ids_in_bounds`: the single deferred loop
of a 23-node body emits id 0, which indexes the one-entry table. -/
theorem emitted_promise_ids_in_bounds_witness :
    0 ∈ codeIds (shallow_compile
      [.Loop (List.replicate 23 ASTNode.Print)] []).1 ∧
    0 < (shallow_compile [.Loop (List.replicate 23 ASTNode.Print)] []).2.length :=
  ⟨by simp [shallow_compile, codeIds, jit_loop],
   (emitted_promise_ids_in_bounds
      [.Loop (List.replicate 23 ASTNode.Print)] []).2.1 0
    (by simp [shallow_compile, codeIds, jit_loop])⟩

end Fucker
